import Mathlib

/-!
# The synchronous / asynchronous dispatch bridge of `carla::rpc::Server`

A shallow embedding of `LibCarla/source/carla/rpc/Server.h` and
`LibCarla/source/carla/rpc/FunctionTraits.h`.

The C++ code is stateful and multi-threaded; the embedding is sequential and
passes the state explicitly.  One value of `Machine` holds everything the
bridge reads or writes: the `boost::asio::io_service` owned by the server, the
state the handlers act on, a steady clock, and the shared states of the
`std::packaged_task` objects that have been run.  A blocking `future::get` is
represented by the reply `Reply.blocked`, which the caller can observe only
once the shared state is ready.

Steps are atomic: an invocation of a wrapper, or one call of `SyncRunFor`.
No call arrives while a pump runs, and handlers do not post to the service.
Time is counted in ticks of the steady clock; it passes while a handler runs.

The library types the code is written against are modelled after their
documented behaviour:
* `io_service::post` queues a handler and never runs it; handlers are run
  only inside `run_for`, by one thread, oldest first;
* `io_service::run_for(d)` is `run_until(now + d)`: it starts a handler only
  while the clock is before the deadline, and returns when there is no work
  left (the service is then stopped), when the service is stopped, or when
  the duration has elapsed; `reset` clears the stopped flag;
* `std::packaged_task::operator()` runs the stored callable and stores its
  value or its failure in the shared state; `std::future::get` blocks until
  the shared state is ready and returns the value or rethrows the failure.
-/

namespace carla
namespace rpc

/-! ## Data model -/

/-- Modelled from the spec: `carla/rpc/Metadata.h` is included by both source
files but is not among them.  The spec describes the metadata as a
per-invocation value carrying a boolean "response ignored" flag. -/
structure Metadata where
  response_ignored : Bool
  deriving DecidableEq, Repr

/-- Modelled from the spec: the accessor `Metadata::IsResponseIgnored()` used at
`Server.h:96`; it reads the one flag of the metadata. -/
def Metadata.IsResponseIgnored (metadata : Metadata) : Bool :=
  metadata.response_ignored

/-- One run of a handler on some arguments, started in a given world: the
value it returns or the failure it throws, the world it leaves behind (its
side effects), and the time the run took on the steady clock. -/
structure Run (σ ε ρ : Type) where
  outcome : Except ε ρ
  world : σ
  elapsed : Nat

/-- `FunctionTraits<F>::FunctionType`, that is `std::function<R(Args...)>`: a
handler taking the call arguments.  Being C++ code it may read and write the
world, throw, and take time. -/
abbrev FunctionType (σ ε α ρ : Type) : Type := α → σ → Run σ ε ρ

/-- `FunctionTraits<F>::PackagedTaskType`, that is `std::packaged_task<R()>`:
a stored nullary callable together with the shared state that its future
reads.  `state` identifies the shared state. -/
structure PackagedTask (σ ε ρ : Type) where
  state : Nat
  fn : σ → Run σ ε ρ

/-- The only failure `std::packaged_task::operator()` itself can throw. -/
inductive future_errc where
  | promise_already_satisfied
  deriving DecidableEq, Repr

/-- Everything outside the `io_service`: the world of the handlers, the steady
clock, the shared states that have been made ready (oldest first, each with
the stored value or the stored failure), and the number of packaged tasks
created so far. -/
structure Env (σ ε ρ : Type) where
  world : σ
  now : Nat
  ready : List (Nat × Except ε ρ)
  next_state : Nat

/-- Model of `boost::asio::io_service` (a library type, used through `post`,
`reset` and `run_for` only): the handlers posted and not yet run, oldest
first, and the stopped flag. -/
structure io_service (τ : Type) where
  queue : List τ
  stopped : Bool

/-- The state of the whole bridge: `Server::_sync_io_service` and the
environment. -/
structure Machine (σ ε ρ : Type) where
  sync_io_service : io_service (PackagedTask σ ε ρ)
  env : Env σ ε ρ

/-- What the caller of an `RPCFunctionType` wrapper gets: the call returned a
value, the call threw, or the call is blocked inside `result.get()` on the
future of the given shared state. -/
inductive Reply (ε ρ : Type) where
  | returned (value : ρ)
  | raised (failure : ε)
  | blocked (result : Nat)

/-- `FunctionTraits<F>::RPCFunctionType`, that is
`std::function<R(Metadata, Args...)>`, in state-passing style. -/
abbrev RPCFunctionType (σ ε α ρ : Type) : Type :=
  Metadata → α → Machine σ ε ρ → Reply ε ρ × Machine σ ε ρ

/-! ## `std::packaged_task` and `std::future` -/

/-- The effect of running the stored callable and making the shared state
ready: the handler runs in the current world, the clock advances by the time
it took, and its outcome, value or failure, is stored. -/
def PackagedTask.complete {σ ε ρ : Type} (task : PackagedTask σ ε ρ)
    (s : Env σ ε ρ) : Env σ ε ρ :=
  { s with
    world := (task.fn s.world).world
    now := s.now + (task.fn s.world).elapsed
    ready := s.ready ++ [(task.state, (task.fn s.world).outcome)] }

/-- `(*task)()`: `std::packaged_task::operator()`.  A failure of the stored
callable is caught and stored; the call itself throws only when the shared
state is already ready. -/
def PackagedTask.invoke {σ ε ρ : Type} (task : PackagedTask σ ε ρ)
    (s : Env σ ε ρ) : Except future_errc (Env σ ε ρ) :=
  if task.state ∈ s.ready.map Prod.fst then
    .error .promise_already_satisfied
  else
    .ok (task.complete s)

/-- `std::future::get` as far as it can be observed: `none` while the shared
state is not ready (the caller stays blocked), otherwise the stored value or
the stored failure, which `get` rethrows. -/
def future_get {σ ε ρ : Type} (s : Env σ ε ρ) (result : Nat) :
    Option (Except ε ρ) :=
  s.ready.lookup result

/-- What the caller has observed of a call in state `m`: nothing yet while it
is blocked on a future that is not ready. -/
def Reply.observe {σ ε ρ : Type} (m : Machine σ ε ρ) :
    Reply ε ρ → Option (Except ε ρ)
  | .returned value => some (.ok value)
  | .raised failure => some (.error failure)
  | .blocked result => future_get m.env result

/-! ## `boost::asio::io_service` -/

/-- `io_service::post`: queue the handler behind those already posted; the
handler is never run from inside `post`. -/
def io_service.post {τ : Type} (service : io_service τ) (handler : τ) :
    io_service τ :=
  { service with queue := service.queue ++ [handler] }

/-- `io_service::reset`: clear the stopped flag. -/
def io_service.reset {τ : Type} (service : io_service τ) : io_service τ :=
  { service with stopped := false }

/-- The loop of `io_service::run_until`, on the handlers still queued.  A
handler is started only while the clock is before `abs_time`; a failure
thrown by a handler leaves the loop; when no work is left the service stops
itself. -/
def run_until {σ ε ρ : Type} (abs_time : Nat) :
    List (PackagedTask σ ε ρ) → Env σ ε ρ → Except future_errc (Machine σ ε ρ)
  | [], s => .ok { sync_io_service := { queue := [], stopped := true }, env := s }
  | task :: rest, s =>
    if s.now < abs_time then
      match task.invoke s with
      | .error e => .error e
      | .ok s1 => run_until abs_time rest s1
    else
      .ok { sync_io_service := { queue := task :: rest, stopped := false }, env := s }

/-- `io_service::run_for(rel_time)`, that is `run_until(now + rel_time)`.  A
stopped service returns at once, and so does a zero duration, for which the
clock is never before the deadline. -/
def run_for {σ ε ρ : Type} (rel_time : Nat) (m : Machine σ ε ρ) :
    Except future_errc (Machine σ ε ρ) :=
  if m.sync_io_service.stopped = true ∨ rel_time = 0 then
    .ok m
  else
    run_until (m.env.now + rel_time) m.sync_io_service.queue m.env

/-! ## `FunctionTraits.h` -/

/-- `FunctionTraits<F>::WrapForRPC` (`FunctionTraits.h:44-49`): the returned
lambda has the fixed signature `R(Metadata, Args...)` and calls
`f(metadata, args...)`. -/
def FunctionTraits.WrapForRPC {α β : Type} (func : Metadata → α → β) :
    Metadata → α → β :=
  fun metadata args => func metadata args

/-! ## `Server.h` -/

/-- The state right after `Server::Server`: nothing posted, the service not
stopped, no packaged task created. -/
def Machine.init {σ ε ρ : Type} (world : σ) : Machine σ ε ρ :=
  { sync_io_service := { queue := [], stopped := false }
    env := { world := world, now := 0, ready := [], next_state := 0 } }

/-- `Server::SyncRunFor` (`Server.h:50-53`): `reset()`, then
`run_for(duration.to_chrono())`.  The `time_duration` of `carla/Time.h`, which
is not among the sources, is taken as a number of ticks. -/
def Server.SyncRunFor {σ ε ρ : Type} (duration : Nat) (m : Machine σ ε ρ) :
    Except future_errc (Machine σ ε ρ) :=
  run_for duration { m with sync_io_service := m.sync_io_service.reset }

/-- `detail::WrapSyncCall` (`Server.h:82-104`).  The returned function makes
a packaged task from a copy of the functor and of the arguments, takes its
future, posts the task, and then either returns `result_t{}` or waits in
`result.get()`.  The outer lambda is not `mutable`, so `std::move(functor)`
copies and the functor stays usable for the next invocation. -/
def detail.WrapSyncCall {σ ε α ρ : Type} [Inhabited ρ]
    (functor : FunctionType σ ε α ρ) : RPCFunctionType σ ε α ρ :=
  fun metadata args m =>
    let task : PackagedTask σ ε ρ :=
      { state := m.env.next_state, fn := functor args }
    let result := task.state
    let m1 : Machine σ ε ρ :=
      { sync_io_service := m.sync_io_service.post task
        env := { m.env with next_state := m.env.next_state + 1 } }
    if metadata.IsResponseIgnored = true then
      (.returned default, m1)
    else
      (.blocked result, m1)

/-- A direct call `f(args...)` on the calling thread: the handler runs now,
in the current world, and its value or failure goes to the caller. -/
def call_functor {σ ε α ρ : Type} (f : FunctionType σ ε α ρ) (args : α)
    (m : Machine σ ε ρ) : Reply ε ρ × Machine σ ε ρ :=
  let run := f args m.env.world
  let m1 : Machine σ ε ρ :=
    { m with env := { m.env with world := run.world, now := m.env.now + run.elapsed } }
  match run.outcome with
  | .ok value => (.returned value, m1)
  | .error failure => (.raised failure, m1)

/-- `detail::WrapAsyncCall` (`Server.h:106-111`): `WrapForRPC` applied to a
lambda that drops its `Metadata` parameter and calls `f(args...)`. -/
def detail.WrapAsyncCall {σ ε α ρ : Type} (functor : FunctionType σ ε α ρ) :
    RPCFunctionType σ ε α ρ :=
  FunctionTraits.WrapForRPC (fun (_ : Metadata) (args : α) => call_functor functor args)

/-- Modelled from the spec: `::rpc::server` is rpclib's server class, not part
of this repository's sources; of it the bridge uses `bind(name, wrapper)`.
The spec's Binding Table maps a unique call name to its wrapper; a name that
is already registered keeps its wrapper. -/
structure rpc_server (σ ε α ρ : Type) where
  funcs : List (String × RPCFunctionType σ ε α ρ)

/-- Modelled from the spec: `::rpc::server::bind`, registration of a wrapper
under a name in the Binding Table. -/
def rpc_server.bind {σ ε α ρ : Type} (server : rpc_server σ ε α ρ)
    (name : String) (wrapper : RPCFunctionType σ ε α ρ) : rpc_server σ ε α ρ :=
  { funcs := server.funcs ++ [(name, wrapper)] }

/-- Modelled from the spec: the look-up of a call name in the Binding Table
that the transport does when it dispatches a call. -/
def rpc_server.find {σ ε α ρ : Type} (server : rpc_server σ ε α ρ)
    (name : String) : Option (RPCFunctionType σ ε α ρ) :=
  server.funcs.lookup name

/-- `Server::BindSync` (`Server.h:121-126`). -/
def Server.BindSync {σ ε α ρ : Type} [Inhabited ρ] (server : rpc_server σ ε α ρ)
    (name : String) (functor : FunctionType σ ε α ρ) : rpc_server σ ε α ρ :=
  server.bind name (detail.WrapSyncCall functor)

/-- `Server::BindAsync` (`Server.h:128-133`). -/
def Server.BindAsync {σ ε α ρ : Type} (server : rpc_server σ ε α ρ)
    (name : String) (functor : FunctionType σ ε α ρ) : rpc_server σ ε α ρ :=
  server.bind name (detail.WrapAsyncCall functor)

/-! ## Runs of the bridge -/

/-- The environment after the given packaged tasks have been run one after
the other, first to last. -/
def complete_all {σ ε ρ : Type} :
    List (PackagedTask σ ε ρ) → Env σ ε ρ → Env σ ε ρ
  | [], s => s
  | task :: rest, s => complete_all rest (task.complete s)

/-- A sequence of invocations of synchronous wrappers, first to last; each
entry gives the bound functor, the metadata and the arguments of one call. -/
def sync_calls {σ ε α ρ : Type} [Inhabited ρ]
    (calls : List (FunctionType σ ε α ρ × Metadata × α)) (m : Machine σ ε ρ) :
    Machine σ ε ρ :=
  calls.foldl (fun acc call => (detail.WrapSyncCall call.1 call.2.1 call.2.2 acc).2) m

/-- The packaged tasks that a sequence of synchronous invocations creates
when the first of them gets the shared state `first`. -/
def tasks_of {σ ε α ρ : Type} :
    List (FunctionType σ ε α ρ × Metadata × α) → Nat → List (PackagedTask σ ε ρ)
  | [], _ => []
  | call :: rest, first =>
    { state := first, fn := call.1 call.2.2 } :: tasks_of rest (first + 1)

/-- The states the bridge can be in: the state after construction, and every
state obtained from a reachable one by an invocation of a synchronous
wrapper, an invocation of an asynchronous wrapper, or a pump that returns. -/
inductive Reachable {σ ε ρ : Type} [Inhabited ρ] : Machine σ ε ρ → Prop where
  | init (world : σ) : Reachable (Machine.init world)
  | sync {α : Type} (functor : FunctionType σ ε α ρ) (metadata : Metadata) (args : α)
      {m : Machine σ ε ρ} :
      Reachable m → Reachable (detail.WrapSyncCall functor metadata args m).2
  | async {α : Type} (functor : FunctionType σ ε α ρ) (metadata : Metadata) (args : α)
      {m : Machine σ ε ρ} :
      Reachable m → Reachable (detail.WrapAsyncCall functor metadata args m).2
  | pump (duration : Nat) {m m1 : Machine σ ε ρ} :
      Reachable m → Server.SyncRunFor duration m = .ok m1 → Reachable m1

/-- The shared states in creation order: those made ready, in the order in
which their tasks were run, followed by those of the tasks still queued, in
queue order, are exactly `0, 1, ..., next_state - 1`. -/
def Machine.ordered {σ ε ρ : Type} (m : Machine σ ε ρ) : Prop :=
  m.env.ready.map Prod.fst ++ m.sync_io_service.queue.map PackagedTask.state
    = List.range m.env.next_state

instance {σ ε ρ : Type} (m : Machine σ ε ρ) : Decidable m.ordered :=
  inferInstanceAs (Decidable (_ = List.range m.env.next_state))

/-! ## Example handlers -/

/-- The handler `Add(a, b) -> a + b` of the spec's scenario; it leaves the
world alone and takes one tick. -/
def Add : FunctionType (List String) String (Nat × Nat) Nat :=
  fun args world => { outcome := .ok (args.1 + args.2), world := world, elapsed := 1 }

/-- The handler `Square(x) -> x * x` of the spec's scenario. -/
def Square : FunctionType (List String) String Nat Nat :=
  fun x world => { outcome := .ok (x * x), world := world, elapsed := 1 }

/-- The handler `Log(msg)` of the spec's scenario: its side effect is to
append the message to the world, a list of logged lines. -/
def Log : FunctionType (List String) String String Unit :=
  fun msg world => { outcome := .ok (), world := world ++ [msg], elapsed := 1 }

/-- A handler that always throws, after leaving a trace in the world. -/
def Fail : FunctionType (List String) String (Nat × Nat) Nat :=
  fun _ world => { outcome := .error "boom", world := world ++ ["fail"], elapsed := 1 }

/-- An empty binding table. -/
def no_bindings {α ρ : Type} : rpc_server (List String) String α ρ :=
  { funcs := [] }

/-- A state with history: `Add` has been invoked once through its synchronous
wrapper, response ignored, and its task is still queued. -/
def busy : Machine (List String) String Nat :=
  (detail.WrapSyncCall Add ⟨true⟩ (1, 1) (Machine.init [])).2

/-- The scenario of the spec: `Log("hello")` has been invoked through its
synchronous wrapper with response ignored, and no pump has run yet. -/
def logged : Machine (List String) String Unit :=
  (detail.WrapSyncCall Log ⟨true⟩ "hello" (Machine.init [])).2

/-- A state whose queue holds a task that will throw, followed by a task
that will not. -/
def faulty : Machine (List String) String Nat :=
  (detail.WrapSyncCall Add ⟨false⟩ (2, 3)
    (detail.WrapSyncCall Fail ⟨false⟩ (0, 0) (Machine.init [])).2).2

/-! ## Lemmas on the environment -/

theorem complete_all_append {σ ε ρ : Type} (q1 q2 : List (PackagedTask σ ε ρ))
    (s : Env σ ε ρ) :
    complete_all (q1 ++ q2) s = complete_all q2 (complete_all q1 s) := by
  induction q1 generalizing s with
  | nil => rfl
  | cons t rest ih => simpa [complete_all] using ih (t.complete s)

theorem complete_all_ready_ids {σ ε ρ : Type} (q : List (PackagedTask σ ε ρ))
    (s : Env σ ε ρ) :
    (complete_all q s).ready.map Prod.fst
      = s.ready.map Prod.fst ++ q.map PackagedTask.state := by
  induction q generalizing s with
  | nil => simp [complete_all]
  | cons t rest ih =>
    simp [complete_all, ih, PackagedTask.complete]

theorem complete_all_next_state {σ ε ρ : Type} (q : List (PackagedTask σ ε ρ))
    (s : Env σ ε ρ) : (complete_all q s).next_state = s.next_state := by
  induction q generalizing s with
  | nil => rfl
  | cons t rest ih => simp [complete_all, ih, PackagedTask.complete]

theorem complete_all_now_le {σ ε ρ : Type} (q : List (PackagedTask σ ε ρ))
    (s : Env σ ε ρ) : s.now ≤ (complete_all q s).now := by
  induction q generalizing s with
  | nil => exact Nat.le_refl _
  | cons t rest ih =>
    have h := ih (t.complete s)
    simp only [complete_all]
    have h2 : s.now ≤ (t.complete s).now := by simp [PackagedTask.complete]
    exact Nat.le_trans h2 h

theorem invoke_fresh {σ ε ρ : Type} (t : PackagedTask σ ε ρ) (s : Env σ ε ρ)
    (h : t.state ∉ s.ready.map Prod.fst) : t.invoke s = .ok (t.complete s) := by
  unfold PackagedTask.invoke
  rw [if_neg h]

/-- The run loop, characterised: when no queued task shares its shared state
with another or with one already ready, the loop returns normally after
running the first `k` queued handlers in order, and handlers are left over
only when the deadline has been reached. -/
theorem run_until_spec {σ ε ρ : Type} (abs_time : Nat) (q : List (PackagedTask σ ε ρ))
    (s : Env σ ε ρ)
    (hnd : (s.ready.map Prod.fst ++ q.map PackagedTask.state).Nodup) :
    ∃ k, k ≤ q.length ∧
      run_until abs_time q s
        = .ok { sync_io_service := { queue := q.drop k, stopped := (q.drop k).isEmpty }
                env := complete_all (q.take k) s } ∧
      (q.drop k ≠ [] → abs_time ≤ (complete_all (q.take k) s).now) := by
  induction q generalizing s with
  | nil => exact ⟨0, Nat.le_refl _, rfl, fun h => absurd rfl h⟩
  | cons t rest ih =>
    by_cases hlt : s.now < abs_time
    · have hfresh : t.state ∉ s.ready.map Prod.fst := by
        intro hmem
        have := (List.nodup_append.mp hnd).2.2
        exact this hmem (by simp)
      have hnd1 : ((t.complete s).ready.map Prod.fst
          ++ rest.map PackagedTask.state).Nodup := by
        simpa [PackagedTask.complete] using hnd
      obtain ⟨k, hk, hrun, hleft⟩ := ih (t.complete s) hnd1
      refine ⟨k + 1, by simpa using hk, ?_, ?_⟩
      · simp only [run_until, if_pos hlt, invoke_fresh t s hfresh]
        simpa [complete_all] using hrun
      · simpa [complete_all] using hleft
    · refine ⟨0, Nat.zero_le _, ?_, ?_⟩
      · simp [run_until, if_neg hlt, complete_all]
      · intro _
        simpa [complete_all] using Nat.le_of_not_lt hlt

/-- With enough time the run loop drains the queue: when every handler but
the last runs for at most `c` ticks and the deadline lies more than
`q.length * c` ticks ahead, all of `q ++ [t]` is run and the service stops
out of work. -/
theorem run_until_all {σ ε ρ : Type} (abs_time c : Nat) (q : List (PackagedTask σ ε ρ))
    (t : PackagedTask σ ε ρ) (s : Env σ ε ρ)
    (hnd : (s.ready.map Prod.fst ++ (q ++ [t]).map PackagedTask.state).Nodup)
    (hc : ∀ x ∈ q, ∀ w, (x.fn w).elapsed ≤ c)
    (hd : s.now + q.length * c < abs_time) :
    run_until abs_time (q ++ [t]) s
      = .ok { sync_io_service := { queue := [], stopped := true }
              env := complete_all (q ++ [t]) s } := by
  induction q generalizing s with
  | nil =>
    have hlt : s.now < abs_time := by simpa using hd
    have hfresh : t.state ∉ s.ready.map Prod.fst := by
      intro hmem
      exact (List.nodup_append.mp hnd).2.2 hmem (by simp)
    simp [run_until, if_pos hlt, invoke_fresh t s hfresh, complete_all]
  | cons x rest ih =>
    have hlt : s.now < abs_time := by
      have : s.now ≤ s.now + (x :: rest).length * c := Nat.le_add_right _ _
      omega
    have hfresh : x.state ∉ s.ready.map Prod.fst := by
      intro hmem
      exact (List.nodup_append.mp hnd).2.2 hmem (by simp)
    have hnd1 : ((x.complete s).ready.map Prod.fst
        ++ (rest ++ [t]).map PackagedTask.state).Nodup := by
      simpa [PackagedTask.complete] using hnd
    have hx : (x.fn s.world).elapsed ≤ c := hc x (by simp) s.world
    have hd1 : (x.complete s).now + rest.length * c < abs_time := by
      have e1 : (x.complete s).now = s.now + (x.fn s.world).elapsed := rfl
      have e2 : (x :: rest).length * c = rest.length * c + c := by
        simp [Nat.succ_mul]
      omega
    have hrec := ih (x.complete s) hnd1 (fun y hy => hc y (by simp [hy])) hd1
    simp only [List.cons_append, run_until, if_pos hlt, invoke_fresh x s hfresh]
    simpa [complete_all] using hrec

theorem lookup_append_fresh {β : Type} (l1 l2 : List (Nat × β)) (k : Nat) (v : β)
    (h : k ∉ l1.map Prod.fst) : (l1 ++ (k, v) :: l2).lookup k = some v := by
  induction l1 with
  | nil => simp [List.lookup]
  | cons p rest ih =>
    obtain ⟨a, b⟩ := p
    have hne : k ≠ a := by
      intro e
      exact h (by simp [e])
    have hrest : k ∉ rest.map Prod.fst := by
      intro hm
      exact h (by simp at hm ⊢; exact Or.inr hm)
    have hb : (k == a) = false := by simpa using hne
    simp [List.lookup, hb, ih hrest]

theorem lookup_absent {β : Type} (l : List (Nat × β)) (k : Nat)
    (h : k ∉ l.map Prod.fst) : l.lookup k = none := by
  induction l with
  | nil => rfl
  | cons p rest ih =>
    obtain ⟨a, b⟩ := p
    have hne : k ≠ a := by
      intro e
      exact h (by simp [e])
    have hrest : k ∉ rest.map Prod.fst := by
      intro hm
      exact h (by simp at hm ⊢; exact Or.inr hm)
    have hb : (k == a) = false := by simpa using hne
    simp [List.lookup, hb, ih hrest]

theorem complete_all_ready {σ ε ρ : Type} (q : List (PackagedTask σ ε ρ))
    (s : Env σ ε ρ) : ∃ l, (complete_all q s).ready = s.ready ++ l := by
  induction q generalizing s with
  | nil => exact ⟨[], by simp [complete_all]⟩
  | cons t rest ih =>
    obtain ⟨l, hl⟩ := ih (t.complete s)
    refine ⟨(t.state, (t.fn s.world).outcome) :: l, ?_⟩
    simp only [complete_all]
    rw [hl]
    simp [PackagedTask.complete]

/-- The future of a task that has been run holds the outcome of its handler
in the world left by the tasks run before it. -/
theorem future_get_complete_all {σ ε ρ : Type} (q1 q2 : List (PackagedTask σ ε ρ))
    (t : PackagedTask σ ε ρ) (s : Env σ ε ρ)
    (hnd : (s.ready.map Prod.fst ++ (q1 ++ t :: q2).map PackagedTask.state).Nodup) :
    future_get (complete_all (q1 ++ t :: q2) s) t.state
      = some (t.fn (complete_all q1 s).world).outcome := by
  have hfresh : t.state ∉ (complete_all q1 s).ready.map Prod.fst := by
    rw [complete_all_ready_ids]
    intro hmem
    have h1 : (s.ready.map Prod.fst ++ q1.map PackagedTask.state
        ++ t.state :: q2.map PackagedTask.state).Nodup := by
      simpa using hnd
    exact (List.nodup_append.mp h1).2.2 hmem (by simp)
  obtain ⟨l, hl⟩ := complete_all_ready q2 (t.complete (complete_all q1 s))
  unfold future_get
  rw [complete_all_append]
  simp only [complete_all]
  rw [hl]
  simp only [PackagedTask.complete, List.append_assoc, List.singleton_append]
  exact lookup_append_fresh _ _ _ _ hfresh

/-- A state that is `ordered` has no shared state twice. -/
theorem ordered_nodup {σ ε ρ : Type} (m : Machine σ ε ρ) (h : m.ordered) :
    (m.env.ready.map Prod.fst
      ++ m.sync_io_service.queue.map PackagedTask.state).Nodup := by
  unfold Machine.ordered at h
  rw [h]
  exact List.nodup_range _

/-- The pump, characterised on ordered states: it returns normally, having
run the first `k` queued tasks in queue order and left the others queued in
their order, and tasks are left over only when the duration has elapsed. -/
theorem SyncRunFor_spec {σ ε ρ : Type} (duration : Nat) (m : Machine σ ε ρ)
    (h : m.ordered) :
    ∃ k b, k ≤ m.sync_io_service.queue.length ∧
      Server.SyncRunFor duration m
        = .ok { sync_io_service := { queue := m.sync_io_service.queue.drop k, stopped := b }
                env := complete_all (m.sync_io_service.queue.take k) m.env } ∧
      (m.sync_io_service.queue.drop k ≠ [] →
        m.env.now + duration
          ≤ (complete_all (m.sync_io_service.queue.take k) m.env).now) ∧
      (0 < duration → b = (m.sync_io_service.queue.drop k).isEmpty) := by
  by_cases hz : duration = 0
  · refine ⟨0, false, Nat.zero_le _, ?_, ?_, ?_⟩
    · simp [Server.SyncRunFor, run_for, io_service.reset, hz, complete_all]
    · intro _
      simp [hz, complete_all]
    · intro hpos
      omega
  · obtain ⟨k, hk, hrun, hleft⟩ :=
      run_until_spec (m.env.now + duration) m.sync_io_service.queue m.env
        (ordered_nodup m h)
    refine ⟨k, (m.sync_io_service.queue.drop k).isEmpty, hk, ?_, hleft, fun _ => rfl⟩
    simp only [Server.SyncRunFor, run_for, io_service.reset]
    rw [if_neg (by simp [hz])]
    exact hrun

/-- Every reachable state is ordered. -/
theorem reachable_ordered {σ ε ρ : Type} [Inhabited ρ] (m : Machine σ ε ρ)
    (h : Reachable m) : m.ordered := by
  induction h with
  | init world => simp [Machine.ordered, Machine.init]
  | sync functor metadata args _ ih =>
    unfold Machine.ordered at ih ⊢
    by_cases hf : metadata.IsResponseIgnored = true <;>
      simp [detail.WrapSyncCall, hf, io_service.post, List.range_succ, ← ih]
  | async functor metadata args _ ih =>
    unfold Machine.ordered at ih ⊢
    simp only [detail.WrapAsyncCall, FunctionTraits.WrapForRPC, call_functor]
    split <;> simpa using ih
  | @pump duration m0 m1 _ hrun ih =>
    obtain ⟨k, b, _, hspec, _, _⟩ := SyncRunFor_spec duration m0 ih
    rw [hspec] at hrun
    injection hrun with hrun
    subst hrun
    unfold Machine.ordered at ih ⊢
    simp only [complete_all_ready_ids, complete_all_next_state]
    rw [← ih, List.append_assoc, ← List.map_append, List.take_append_drop]

theorem lookup_append_of_none {κ β : Type} [BEq κ] [LawfulBEq κ]
    (l : List (κ × β)) (k : κ) (v : β) (h : l.lookup k = none) :
    (l ++ [(k, v)]).lookup k = some v := by
  induction l with
  | nil => simp [List.lookup]
  | cons p rest ih =>
    obtain ⟨a, b⟩ := p
    cases hb : (k == a) with
    | true => simp [List.lookup, hb] at h
    | false =>
      simp only [List.lookup, hb] at h
      simp [List.lookup, hb, ih h]

theorem bind_find {σ ε α ρ : Type} (server : rpc_server σ ε α ρ) (name : String)
    (wrapper : RPCFunctionType σ ε α ρ) (h : server.find name = none) :
    (server.bind name wrapper).find name = some wrapper := by
  unfold rpc_server.find at h ⊢
  exact lookup_append_of_none _ _ _ h

theorem complete_all_with_next_state {σ ε ρ : Type} (q : List (PackagedTask σ ε ρ))
    (s : Env σ ε ρ) (n : Nat) :
    complete_all q { s with next_state := n }
      = { complete_all q s with next_state := n } := by
  induction q generalizing s with
  | nil => rfl
  | cons t rest ih =>
    simp only [complete_all]
    exact ih (t.complete s)

theorem nodup_take {σ ε ρ : Type} (ids : List Nat) (q : List (PackagedTask σ ε ρ))
    (k : Nat) (h : (ids ++ q.map PackagedTask.state).Nodup) :
    (ids ++ (q.take k).map PackagedTask.state).Nodup := by
  refine List.Nodup.sublist ?_ h
  exact List.Sublist.append_left ((List.take_sublist k q).map _) ids

/-- After the first `k` tasks of a queue have been run, the future of a
queued task is ready, with the outcome of its handler, when the task is among
those `k`, and not ready otherwise. -/
theorem future_get_take {σ ε ρ : Type} (q1 q2 : List (PackagedTask σ ε ρ))
    (t : PackagedTask σ ε ρ) (s : Env σ ε ρ) (k : Nat)
    (hnd : (s.ready.map Prod.fst ++ (q1 ++ t :: q2).map PackagedTask.state).Nodup) :
    (q1.length < k →
      future_get (complete_all ((q1 ++ t :: q2).take k) s) t.state
        = some (t.fn (complete_all q1 s).world).outcome) ∧
    (k ≤ q1.length →
      future_get (complete_all ((q1 ++ t :: q2).take k) s) t.state = none) := by
  constructor
  · intro hk
    have htake : (q1 ++ t :: q2).take k = q1 ++ t :: q2.take (k - q1.length - 1) := by
      rw [List.take_append_eq_append_take, List.take_of_length_le (Nat.le_of_lt hk)]
      obtain ⟨j, hj⟩ : ∃ j, k - q1.length = j + 1 := ⟨k - q1.length - 1, by omega⟩
      rw [hj]
      simp
    have hnd1 := nodup_take (s.ready.map Prod.fst) (q1 ++ t :: q2) k hnd
    rw [htake] at hnd1 ⊢
    exact future_get_complete_all q1 _ t s hnd1
  · intro hk
    have htake : (q1 ++ t :: q2).take k = q1.take k := by
      rw [List.take_append_eq_append_take]
      have : k - q1.length = 0 := by omega
      simp [this]
    rw [htake]
    unfold future_get
    apply lookup_absent
    rw [complete_all_ready_ids]
    intro hmem
    have h1 : (s.ready.map Prod.fst ++ q1.map PackagedTask.state
        ++ t.state :: q2.map PackagedTask.state).Nodup := by
      simpa using hnd
    have hdis := (List.nodup_append.mp h1).2.2
    refine hdis ?_ (List.mem_cons_self _ _)
    rcases List.mem_append.mp hmem with h | h
    · exact List.mem_append_left _ h
    · exact List.mem_append_right _ ((List.take_sublist k q1).map _ |>.subset h)

theorem complete_all_now_bound {σ ε ρ : Type} (c : Nat) (q : List (PackagedTask σ ε ρ))
    (s : Env σ ε ρ) (hc : ∀ x ∈ q, ∀ w, (x.fn w).elapsed ≤ c) :
    (complete_all q s).now ≤ s.now + q.length * c := by
  induction q generalizing s with
  | nil => simp [complete_all]
  | cons t rest ih =>
    have h1 := ih (t.complete s) (fun y hy => hc y (by simp [hy]))
    have h2 : (t.complete s).now = s.now + (t.fn s.world).elapsed := rfl
    have h3 : (t.fn s.world).elapsed ≤ c := hc t (by simp) s.world
    have h4 : (t :: rest).length * c = rest.length * c + c := by simp [Nat.succ_mul]
    simp only [complete_all]
    omega

theorem sync_state {σ ε α ρ : Type} [Inhabited ρ] (f : FunctionType σ ε α ρ)
    (metadata : Metadata) (args : α) (m : Machine σ ε ρ) :
    (detail.WrapSyncCall f metadata args m).2
      = { sync_io_service :=
            { queue := m.sync_io_service.queue ++ [{ state := m.env.next_state, fn := f args }]
              stopped := m.sync_io_service.stopped }
          env := { m.env with next_state := m.env.next_state + 1 } } := by
  by_cases h : metadata.IsResponseIgnored = true <;>
    simp [detail.WrapSyncCall, h, io_service.post]

theorem sync_reply {σ ε α ρ : Type} [Inhabited ρ] (f : FunctionType σ ε α ρ)
    (metadata : Metadata) (args : α) (m : Machine σ ε ρ) :
    (detail.WrapSyncCall f metadata args m).1
      = if metadata.IsResponseIgnored = true then .returned default
        else .blocked m.env.next_state := by
  by_cases h : metadata.IsResponseIgnored = true <;> simp [detail.WrapSyncCall, h]

/-- One pump after one synchronous invocation, for any duration: the pump
returns, and the future of the new task is either not ready or holds the
outcome of the handler in the world left by the tasks queued before it; with
enough time it is ready. -/
theorem sync_then_pump {σ ε α ρ : Type} [Inhabited ρ] (m : Machine σ ε ρ)
    (hm : Reachable m) (f : FunctionType σ ε α ρ) (metadata : Metadata) (args : α)
    (duration : Nat) :
    ∃ m2, Server.SyncRunFor duration (detail.WrapSyncCall f metadata args m).2 = .ok m2 ∧
      (future_get m2.env m.env.next_state = none ∨
        future_get m2.env m.env.next_state
          = some (f args (complete_all m.sync_io_service.queue m.env).world).outcome) ∧
      ∀ c, (∀ x ∈ m.sync_io_service.queue, ∀ w, (x.fn w).elapsed ≤ c) →
        m.sync_io_service.queue.length * c < duration →
        future_get m2.env m.env.next_state
          = some (f args (complete_all m.sync_io_service.queue m.env).world).outcome ∧
        m2.sync_io_service.queue = [] := by
  have hord := reachable_ordered _ (Reachable.sync f metadata args hm)
  have hnd := ordered_nodup _ hord
  obtain ⟨k, b, hk, hrun, hleft, _⟩ := SyncRunFor_spec duration _ hord
  rw [sync_state] at hnd hrun hleft hk
  simp only at hnd hrun hleft hk
  rw [sync_state]
  refine ⟨_, hrun, ?_, ?_⟩
  · have h := future_get_take m.sync_io_service.queue []
      { state := m.env.next_state, fn := f args }
      { m.env with next_state := m.env.next_state + 1 } k hnd
    by_cases hlt : m.sync_io_service.queue.length < k
    · right
      have := h.1 hlt
      simpa [complete_all_with_next_state] using this
    · left
      exact h.2 (Nat.le_of_not_lt hlt)
  · intro c hc hd
    have hall := run_until_all (m.env.now + duration) c m.sync_io_service.queue
      { state := m.env.next_state, fn := f args }
      { m.env with next_state := m.env.next_state + 1 } hnd hc (by simpa using Nat.add_lt_add_left hd m.env.now)
    have hpos : duration ≠ 0 := by omega
    have hrun2 : Server.SyncRunFor duration
        { sync_io_service :=
            { queue := m.sync_io_service.queue ++ [{ state := m.env.next_state, fn := f args }]
              stopped := m.sync_io_service.stopped }
          env := { m.env with next_state := m.env.next_state + 1 } }
        = .ok { sync_io_service := { queue := [], stopped := true }
                env := complete_all (m.sync_io_service.queue
                  ++ [{ state := m.env.next_state, fn := f args }])
                  { m.env with next_state := m.env.next_state + 1 } } := by
      simp only [Server.SyncRunFor, run_for, io_service.reset]
      rw [if_neg (by simp [hpos])]
      exact hall
    rw [hrun] at hrun2
    injection hrun2 with hrun2
    rw [hrun2]
    refine ⟨?_, rfl⟩
    have := future_get_complete_all m.sync_io_service.queue []
      { state := m.env.next_state, fn := f args }
      { m.env with next_state := m.env.next_state + 1 } hnd
    simpa [complete_all_with_next_state] using this

theorem sync_calls_state {σ ε α ρ : Type} [Inhabited ρ]
    (calls : List (FunctionType σ ε α ρ × Metadata × α)) (m : Machine σ ε ρ) :
    sync_calls calls m
      = { sync_io_service :=
            { queue := m.sync_io_service.queue ++ tasks_of calls m.env.next_state
              stopped := m.sync_io_service.stopped }
          env := { m.env with next_state := m.env.next_state + calls.length } } := by
  induction calls generalizing m with
  | nil => simp [sync_calls, tasks_of]
  | cons call rest ih =>
    have hstep : sync_calls (call :: rest) m
        = sync_calls rest (detail.WrapSyncCall call.1 call.2.1 call.2.2 m).2 := rfl
    rw [hstep, ih, sync_state]
    simp [tasks_of, Nat.add_assoc, Nat.add_comm 1]

theorem reachable_sync_calls {σ ε α ρ : Type} [Inhabited ρ]
    (calls : List (FunctionType σ ε α ρ × Metadata × α)) (m : Machine σ ε ρ)
    (hm : Reachable m) : Reachable (sync_calls calls m) := by
  induction calls generalizing m with
  | nil => exact hm
  | cons call rest ih =>
    exact ih _ (Reachable.sync call.1 call.2.1 call.2.2 hm)

theorem tasks_of_states {σ ε α ρ : Type}
    (calls : List (FunctionType σ ε α ρ × Metadata × α)) (first : Nat) :
    (tasks_of calls first).map PackagedTask.state = List.range' first calls.length := by
  induction calls generalizing first with
  | nil => rfl
  | cons call rest ih => simp [tasks_of, ih, List.range'_succ]

/-- With enough time the pump drains the queue: when every queued task runs
for at most `c` ticks and all but the last fit in the duration, every queued
task is run, none is left, and the service has stopped out of work. -/
theorem SyncRunFor_all {σ ε ρ : Type} (c duration : Nat) (m : Machine σ ε ρ)
    (h : m.ordered)
    (hc : ∀ x ∈ m.sync_io_service.queue, ∀ w, (x.fn w).elapsed ≤ c)
    (hd : (m.sync_io_service.queue.length - 1) * c < duration) :
    Server.SyncRunFor duration m
      = .ok { sync_io_service := { queue := [], stopped := true }
              env := complete_all m.sync_io_service.queue m.env } := by
  obtain ⟨k, b, hk, hrun, hleft, hb⟩ := SyncRunFor_spec duration m h
  have hdrop : m.sync_io_service.queue.drop k = [] := by
    by_contra hne
    have h1 := hleft hne
    have h2 := complete_all_now_bound c (m.sync_io_service.queue.take k) m.env
      (fun x hx => hc x (List.mem_of_mem_take hx))
    have hklt : k < m.sync_io_service.queue.length := by
      by_contra hge
      exact hne (List.drop_eq_nil_of_le (Nat.le_of_not_lt hge))
    have h3 : (m.sync_io_service.queue.take k).length = k := by
      simp [List.length_take, Nat.min_eq_left hk]
    rw [h3] at h2
    have h4 : k * c ≤ (m.sync_io_service.queue.length - 1) * c :=
      Nat.mul_le_mul_right c (by omega)
    omega
  have hkge : m.sync_io_service.queue.length ≤ k := by
    by_contra hlt
    have := List.drop_eq_nil_iff.mp hdrop
    omega
  have hpos : 0 < duration := by omega
  rw [hrun, hb hpos, hdrop, List.take_of_length_le hkge]
  rfl

theorem lookup_present {β : Type} (l : List (Nat × β)) (k : Nat)
    (h : k ∈ l.map Prod.fst) : ∃ v, l.lookup k = some v := by
  induction l with
  | nil => simp at h
  | cons p rest ih =>
    obtain ⟨a, b⟩ := p
    cases hb : (k == a) with
    | true => exact ⟨b, by simp [List.lookup, hb]⟩
    | false =>
      have hne : k ≠ a := by simpa using hb
      have hrest : k ∈ rest.map Prod.fst := by
        simp only [List.map_cons, List.mem_cons] at h
        rcases h with h | h
        · exact absurd h hne
        · exact h
      obtain ⟨v, hv⟩ := ih hrest
      exact ⟨v, by simp [List.lookup, hb, hv]⟩

/-- The run loop, characterised exactly: it runs the first `k` queued
handlers, each of them started while the clock was before the deadline, and
stops at the first handler that would start at or after the deadline. -/
theorem run_until_exact {σ ε ρ : Type} (abs_time : Nat) (q : List (PackagedTask σ ε ρ))
    (s : Env σ ε ρ)
    (hnd : (s.ready.map Prod.fst ++ q.map PackagedTask.state).Nodup) :
    ∃ k, k ≤ q.length ∧
      run_until abs_time q s
        = .ok { sync_io_service := { queue := q.drop k, stopped := (q.drop k).isEmpty }
                env := complete_all (q.take k) s } ∧
      (q.drop k ≠ [] → abs_time ≤ (complete_all (q.take k) s).now) ∧
      (∀ j, j < k → (complete_all (q.take j) s).now < abs_time) := by
  induction q generalizing s with
  | nil =>
    exact ⟨0, Nat.le_refl _, rfl, fun h => absurd rfl h, fun j hj => absurd hj (Nat.not_lt_zero j)⟩
  | cons t rest ih =>
    by_cases hlt : s.now < abs_time
    · have hfresh : t.state ∉ s.ready.map Prod.fst := by
        intro hmem
        exact (List.nodup_append.mp hnd).2.2 hmem (by simp)
      have hnd1 : ((t.complete s).ready.map Prod.fst
          ++ rest.map PackagedTask.state).Nodup := by
        simpa [PackagedTask.complete] using hnd
      obtain ⟨k, hk, hrun, hleft, hstart⟩ := ih (t.complete s) hnd1
      refine ⟨k + 1, by simpa using hk, ?_, ?_, ?_⟩
      · simp only [run_until, if_pos hlt, invoke_fresh t s hfresh]
        simpa [complete_all] using hrun
      · simpa [complete_all] using hleft
      · intro j hj
        cases j with
        | zero => simpa [complete_all] using hlt
        | succ i =>
          have := hstart i (by omega)
          simpa [complete_all] using this
    · refine ⟨0, Nat.zero_le _, ?_, ?_, fun j hj => absurd hj (Nat.not_lt_zero j)⟩
      · simp [run_until, if_neg hlt, complete_all]
      · intro _
        simpa [complete_all] using Nat.le_of_not_lt hlt

/-- The pump, characterised exactly on ordered states: it returns normally,
having run the first `k` queued tasks in queue order, each started while the
clock was before the deadline, and left the others queued; tasks are left
over only when the duration has elapsed; the service is stopped when it ran
out of work before the deadline. -/
theorem SyncRunFor_exact {σ ε ρ : Type} (duration : Nat) (m : Machine σ ε ρ)
    (h : m.ordered) :
    ∃ k b, k ≤ m.sync_io_service.queue.length ∧
      Server.SyncRunFor duration m
        = .ok { sync_io_service := { queue := m.sync_io_service.queue.drop k, stopped := b }
                env := complete_all (m.sync_io_service.queue.take k) m.env } ∧
      (m.sync_io_service.queue.drop k ≠ [] →
        m.env.now + duration
          ≤ (complete_all (m.sync_io_service.queue.take k) m.env).now) ∧
      (∀ j, j < k →
        (complete_all (m.sync_io_service.queue.take j) m.env).now < m.env.now + duration) ∧
      (0 < duration → b = (m.sync_io_service.queue.drop k).isEmpty) := by
  by_cases hz : duration = 0
  · refine ⟨0, false, Nat.zero_le _, ?_, ?_, fun j hj => absurd hj (Nat.not_lt_zero j), ?_⟩
    · simp [Server.SyncRunFor, run_for, io_service.reset, hz, complete_all]
    · intro _
      simp [hz, complete_all]
    · intro hpos
      omega
  · obtain ⟨k, hk, hrun, hleft, hstart⟩ :=
      run_until_exact (m.env.now + duration) m.sync_io_service.queue m.env
        (ordered_nodup m h)
    refine ⟨k, (m.sync_io_service.queue.drop k).isEmpty, hk, ?_, hleft, hstart, fun _ => rfl⟩
    simp only [Server.SyncRunFor, run_for, io_service.reset]
    rw [if_neg (by simp [hz])]
    exact hrun

/-! ## The claims -/

/-- C1: value-correctness of a synchronous binding called with response
expected.  `BindSync` registers the wrapper built by `WrapSyncCall`.  Invoked
with the response-ignored flag false in any reachable state, so also after
earlier invocations of the same wrapper, the call is blocked until a pump
runs.  A pump of any duration then returns, and the caller has observed
either nothing yet (the pump did not get to the task) or exactly the outcome
of `f(args)`, the handler being run in the world left by the tasks queued
before it; whenever the shared state of the task is ready the caller
observes that outcome; and the pump does get to the task when the tasks
queued before it take at most `c` ticks each and there are fewer than
`duration / c` of them. -/
theorem sync_call_value_correct {σ ε α ρ : Type} [Inhabited ρ]
    (server : rpc_server σ ε α ρ) (name : String) (f : FunctionType σ ε α ρ)
    (m : Machine σ ε ρ) (metadata : Metadata) (args : α)
    (hname : server.find name = none)
    (hm : Reachable m)
    (hmd : metadata.IsResponseIgnored = false) :
    (Server.BindSync server name f).find name = some (detail.WrapSyncCall f) ∧
    Reply.observe (detail.WrapSyncCall f metadata args m).2
      (detail.WrapSyncCall f metadata args m).1 = none ∧
    ∀ duration, ∃ m2,
      Server.SyncRunFor duration (detail.WrapSyncCall f metadata args m).2 = .ok m2 ∧
      (Reply.observe m2 (detail.WrapSyncCall f metadata args m).1 = none ∨
        Reply.observe m2 (detail.WrapSyncCall f metadata args m).1
          = some (f args (complete_all m.sync_io_service.queue m.env).world).outcome) ∧
      (m.env.next_state ∈ m2.env.ready.map Prod.fst →
        Reply.observe m2 (detail.WrapSyncCall f metadata args m).1
          = some (f args (complete_all m.sync_io_service.queue m.env).world).outcome) ∧
      ∀ c, (∀ x ∈ m.sync_io_service.queue, ∀ w, (x.fn w).elapsed ≤ c) →
        m.sync_io_service.queue.length * c < duration →
        Reply.observe m2 (detail.WrapSyncCall f metadata args m).1
          = some (f args (complete_all m.sync_io_service.queue m.env).world).outcome := by
  have hreply : (detail.WrapSyncCall f metadata args m).1 = .blocked m.env.next_state := by
    rw [sync_reply]
    simp [hmd]
  refine ⟨bind_find server name _ hname, ?_, ?_⟩
  · rw [hreply, sync_state]
    simp only [Reply.observe, future_get]
    apply lookup_absent
    intro hmem
    have hord := reachable_ordered m hm
    unfold Machine.ordered at hord
    have : m.env.next_state ∈ List.range m.env.next_state := by
      rw [← hord]
      exact List.mem_append_left _ hmem
    simp at this
  · intro duration
    obtain ⟨m2, hrun, hobs, hall⟩ := sync_then_pump m hm f metadata args duration
    rw [hreply]
    refine ⟨m2, hrun, hobs, ?_, fun c hc hd => (hall c hc hd).1⟩
    intro hmem
    rcases hobs with hnone | hsome
    · obtain ⟨v, hv⟩ := lookup_present _ _ hmem
      simp only [future_get] at hnone
      rw [hv] at hnone
      exact absurd hnone (by simp)
    · exact hsome

/-- Witness for C1, the scenario of the spec: `Add` bound as sync and called
with `(2, 3)`, response expected, after an earlier call of `Add`; a pump of
two ticks makes the caller observe `5`. -/
theorem sync_call_value_correct_witness :
    ∃ m2, Server.SyncRunFor 2 (detail.WrapSyncCall Add ⟨false⟩ (2, 3) busy).2 = .ok m2 ∧
      Reply.observe m2 (detail.WrapSyncCall Add ⟨false⟩ (2, 3) busy).1 = some (.ok 5) := by
  obtain ⟨m2, hrun, _, _, hall⟩ :=
    (sync_call_value_correct no_bindings "Add" Add busy ⟨false⟩ (2, 3) rfl
      (Reachable.sync Add ⟨true⟩ (1, 1) (Reachable.init [])) rfl).2.2 2
  refine ⟨m2, hrun, hall 1 ?_ (by decide)⟩
  intro x hx w
  simp only [busy, sync_state, Machine.init, List.nil_append, List.mem_singleton] at hx
  subst hx
  simp [Add]

/-- C2: a synchronous wrapper invoked with the response-ignored flag true
returns the default-constructed result at once, in every state and so
whatever the number of tasks already queued: the reply is the returned
default value, observable without any pump, and when the call returns the
handler has not run (the world, the clock and the shared states are
untouched); the only change is the new task at the back of the queue. -/
theorem sync_call_response_ignored {σ ε α ρ : Type} [Inhabited ρ]
    (f : FunctionType σ ε α ρ) (m : Machine σ ε ρ) (metadata : Metadata) (args : α)
    (hmd : metadata.IsResponseIgnored = true) :
    (detail.WrapSyncCall f metadata args m).1 = .returned default ∧
    Reply.observe (detail.WrapSyncCall f metadata args m).2
      (detail.WrapSyncCall f metadata args m).1 = some (.ok default) ∧
    (detail.WrapSyncCall f metadata args m).2.env.world = m.env.world ∧
    (detail.WrapSyncCall f metadata args m).2.env.now = m.env.now ∧
    (detail.WrapSyncCall f metadata args m).2.env.ready = m.env.ready ∧
    (detail.WrapSyncCall f metadata args m).2.sync_io_service.queue
      = m.sync_io_service.queue ++ [{ state := m.env.next_state, fn := f args }] := by
  have hreply : (detail.WrapSyncCall f metadata args m).1 = .returned default := by
    rw [sync_reply]
    simp [hmd]
  rw [hreply, sync_state]
  exact ⟨rfl, rfl, rfl, rfl, rfl, rfl⟩

/-- Witness for C2: `Log("hello")` called through its synchronous wrapper
with response ignored returns the default value and logs nothing. -/
theorem sync_call_response_ignored_witness :
    (detail.WrapSyncCall Log ⟨true⟩ "hello" (Machine.init [])).1 = .returned default ∧
    (detail.WrapSyncCall Log ⟨true⟩ "hello" (Machine.init [])).2.env.world = [] :=
  ⟨(sync_call_response_ignored Log (Machine.init []) ⟨true⟩ "hello" rfl).1,
   (sync_call_response_ignored Log (Machine.init []) ⟨true⟩ "hello" rfl).2.2.1⟩

/-- C4: an asynchronous binding.  `BindAsync` registers the wrapper built by
`WrapAsyncCall`; invoked with any metadata it gives the caller exactly the
outcome of `f(args)` run in the current world, its value or its failure, the
same for every metadata, at once and with no pump; nothing is queued and no
shared state is touched. -/
theorem async_call_direct {σ ε α ρ : Type}
    (server : rpc_server σ ε α ρ) (name : String) (f : FunctionType σ ε α ρ)
    (m : Machine σ ε ρ) (metadata : Metadata) (args : α)
    (hname : server.find name = none) :
    (Server.BindAsync server name f).find name = some (detail.WrapAsyncCall f) ∧
    Reply.observe (detail.WrapAsyncCall f metadata args m).2
      (detail.WrapAsyncCall f metadata args m).1 = some (f args m.env.world).outcome ∧
    (∀ other : Metadata,
      detail.WrapAsyncCall f other args m = detail.WrapAsyncCall f metadata args m) ∧
    (detail.WrapAsyncCall f metadata args m).2.sync_io_service = m.sync_io_service ∧
    (detail.WrapAsyncCall f metadata args m).2.env.ready = m.env.ready ∧
    (detail.WrapAsyncCall f metadata args m).2.env.next_state = m.env.next_state ∧
    (detail.WrapAsyncCall f metadata args m).2.env.world = (f args m.env.world).world := by
  refine ⟨bind_find server name _ hname, ?_, fun _ => rfl, ?_, ?_, ?_, ?_⟩ <;>
    simp only [detail.WrapAsyncCall, FunctionTraits.WrapForRPC, call_functor] <;>
    cases (f args m.env.world).outcome <;> rfl

/-- Witness for C4, the scenario of the spec: `Square` bound as async and
called with `4` yields `16` with no pump. -/
theorem async_call_direct_witness :
    Reply.observe (detail.WrapAsyncCall Square ⟨false⟩ 4 (Machine.init [])).2
      (detail.WrapAsyncCall Square ⟨false⟩ 4 (Machine.init [])).1 = some (.ok 16) :=
  (async_call_direct no_bindings "Square" Square (Machine.init []) ⟨false⟩ 4 rfl).2.1

/-- C3: first in, first out.  After any sequence of synchronous invocations
made in a reachable state the queue holds the tasks queued before followed by
the new tasks in invocation order, the new tasks carrying consecutive shared
states.  A pump of any duration then returns having run exactly the first
`k` tasks of that queue, in that order, where `k` is fixed by the deadline:
each of the `k` tasks was started before the deadline, and tasks are left
queued, in their order, only when the duration has elapsed.  The shared
states in execution order followed by those still queued are `0, 1, 2, ...`
in creation order, so no task is run before one queued earlier.  When every
task takes at most `c` ticks and all but the last fit in the duration, the
pump runs all of them, the handlers of the `N` calls one after the other in
the order `t1, ..., tN` of the calls. -/
theorem sync_calls_run_in_enqueue_order {σ ε α ρ : Type} [Inhabited ρ]
    (m : Machine σ ε ρ) (calls : List (FunctionType σ ε α ρ × Metadata × α))
    (duration : Nat) (hm : Reachable m) :
    (sync_calls calls m).sync_io_service.queue
      = m.sync_io_service.queue ++ tasks_of calls m.env.next_state ∧
    (sync_calls calls m).env = { m.env with next_state := m.env.next_state + calls.length } ∧
    (tasks_of calls m.env.next_state).map PackagedTask.state
      = List.range' m.env.next_state calls.length ∧
    ∃ k m2, k ≤ (m.sync_io_service.queue ++ tasks_of calls m.env.next_state).length ∧
      Server.SyncRunFor duration (sync_calls calls m) = .ok m2 ∧
      m2.env = complete_all
        ((m.sync_io_service.queue ++ tasks_of calls m.env.next_state).take k)
        (sync_calls calls m).env ∧
      m2.env.ready.map Prod.fst
        = m.env.ready.map Prod.fst
          ++ ((m.sync_io_service.queue ++ tasks_of calls m.env.next_state).take k).map
              PackagedTask.state ∧
      m2.sync_io_service.queue
        = (m.sync_io_service.queue ++ tasks_of calls m.env.next_state).drop k ∧
      m2.env.ready.map Prod.fst ++ m2.sync_io_service.queue.map PackagedTask.state
        = List.range (m.env.next_state + calls.length) ∧
      (∀ j, j < k →
        (complete_all
          ((m.sync_io_service.queue ++ tasks_of calls m.env.next_state).take j)
          (sync_calls calls m).env).now < m.env.now + duration) ∧
      (m2.sync_io_service.queue ≠ [] → m.env.now + duration ≤ m2.env.now) ∧
      ∀ c,
        (∀ x ∈ m.sync_io_service.queue ++ tasks_of calls m.env.next_state,
          ∀ w, (x.fn w).elapsed ≤ c) →
        ((m.sync_io_service.queue ++ tasks_of calls m.env.next_state).length - 1) * c
          < duration →
        m2.sync_io_service.queue = [] ∧
        m2.env = complete_all (tasks_of calls m.env.next_state)
          (complete_all m.sync_io_service.queue (sync_calls calls m).env) ∧
        m2.env.ready.map Prod.fst
          = m.env.ready.map Prod.fst
            ++ m.sync_io_service.queue.map PackagedTask.state
            ++ List.range' m.env.next_state calls.length := by
  have hreach := reachable_sync_calls calls m hm
  have hord := reachable_ordered _ hreach
  obtain ⟨k, b, hk, hrun, hleft, hstart, _⟩ := SyncRunFor_exact duration _ hord
  have hord2 := reachable_ordered _ (Reachable.pump duration hreach hrun)
  have hall := SyncRunFor_all (σ := σ) (ε := ε) (ρ := ρ)
  rw [sync_calls_state] at hrun hord2 hk hleft hstart hord ⊢
  refine ⟨rfl, rfl, tasks_of_states calls _, k, _, hk, hrun, rfl, ?_, rfl, ?_,
    hstart, hleft, ?_⟩
  · simp only [complete_all_ready_ids]
  · unfold Machine.ordered at hord2
    simpa [complete_all_next_state] using hord2
  · intro c hc hd
    have h := hall c duration _ hord hc hd
    rw [hrun] at h
    injection h with h
    rw [h]
    refine ⟨rfl, ?_, ?_⟩
    · exact complete_all_append _ _ _
    · simp only [complete_all_ready_ids, List.map_append, tasks_of_states, List.append_assoc]

/-- Witness for C3: after an earlier call of `Log("hello")`, the calls
`Log("a")` and `Log("b")` are made in that order; a pump of three ticks runs
the three handlers in that order, as the log shows. -/
theorem sync_calls_run_in_enqueue_order_witness :
    ∃ m2, Server.SyncRunFor 3
        (sync_calls [(Log, ⟨false⟩, "a"), (Log, ⟨true⟩, "b")] logged) = .ok m2 ∧
      m2.env.world = ["hello", "a", "b"] ∧
      m2.env.ready.map Prod.fst = [0, 1, 2] ∧
      m2.sync_io_service.queue = [] := by
  obtain ⟨_, _, _, k, m2, _, hrun, _, _, _, _, _, _, hall⟩ :=
    sync_calls_run_in_enqueue_order logged [(Log, ⟨false⟩, "a"), (Log, ⟨true⟩, "b")] 3
      (Reachable.sync Log ⟨true⟩ "hello" (Reachable.init []))
  have h := hall 1
    (by
      intro x hx w
      simp only [logged, sync_state, Machine.init, tasks_of, List.nil_append,
        List.cons_append, List.mem_cons, List.not_mem_nil, or_false] at hx
      rcases hx with hx | hx | hx <;> subst hx <;> simp [Log])
    (by decide)
  refine ⟨m2, hrun, ?_, ?_, h.1⟩
  · rw [h.2.1]
    rfl
  · rw [h.2.2]
    rfl

/-- C5: failure propagation.  Let a synchronously bound handler throw `e` on
the given arguments in the world in which its task is run.  A caller that
invoked the wrapper with response expected observes, after a pump of any
duration, either nothing yet or the failure `e`; it observes `e` whenever
the task has been run, which the pump does when it has the time to reach the
task.  A caller that invoked it with response ignored got the default value
as a normal return and observes that value in every state, although the
pump stores the failure in the shared state of the task. -/
theorem sync_call_failure {σ ε α ρ : Type} [Inhabited ρ]
    (f : FunctionType σ ε α ρ) (m : Machine σ ε ρ) (expected ignored : Metadata)
    (args : α) (e : ε)
    (hm : Reachable m)
    (hexp : expected.IsResponseIgnored = false)
    (hign : ignored.IsResponseIgnored = true)
    (hfail : (f args (complete_all m.sync_io_service.queue m.env).world).outcome = .error e) :
    (∀ duration, ∃ m2,
      Server.SyncRunFor duration (detail.WrapSyncCall f expected args m).2 = .ok m2 ∧
      (Reply.observe m2 (detail.WrapSyncCall f expected args m).1 = none ∨
        Reply.observe m2 (detail.WrapSyncCall f expected args m).1 = some (.error e)) ∧
      (m.env.next_state ∈ m2.env.ready.map Prod.fst →
        Reply.observe m2 (detail.WrapSyncCall f expected args m).1 = some (.error e)) ∧
      ∀ c, (∀ x ∈ m.sync_io_service.queue, ∀ w, (x.fn w).elapsed ≤ c) →
        m.sync_io_service.queue.length * c < duration →
        Reply.observe m2 (detail.WrapSyncCall f expected args m).1 = some (.error e)) ∧
    (detail.WrapSyncCall f ignored args m).1 = .returned default ∧
    (∀ m3 : Machine σ ε ρ,
      Reply.observe m3 (detail.WrapSyncCall f ignored args m).1 = some (.ok default)) ∧
    ∀ duration, ∃ m2,
      Server.SyncRunFor duration (detail.WrapSyncCall f ignored args m).2 = .ok m2 ∧
      ∀ c, (∀ x ∈ m.sync_io_service.queue, ∀ w, (x.fn w).elapsed ≤ c) →
        m.sync_io_service.queue.length * c < duration →
        future_get m2.env m.env.next_state = some (.error e) ∧
        Reply.observe m2 (detail.WrapSyncCall f ignored args m).1 = some (.ok default) := by
  have hreply : (detail.WrapSyncCall f expected args m).1 = .blocked m.env.next_state := by
    rw [sync_reply]
    simp [hexp]
  have hreply2 : (detail.WrapSyncCall f ignored args m).1 = .returned default := by
    rw [sync_reply]
    simp [hign]
  refine ⟨?_, hreply2, ?_, ?_⟩
  · intro duration
    obtain ⟨m2, hrun, hobs, hall⟩ := sync_then_pump m hm f expected args duration
    rw [hfail] at hobs hall
    rw [hreply]
    refine ⟨m2, hrun, hobs, ?_, fun c hc hd => (hall c hc hd).1⟩
    intro hmem
    rcases hobs with hnone | hsome
    · obtain ⟨v, hv⟩ := lookup_present _ _ hmem
      simp only [future_get] at hnone
      rw [hv] at hnone
      exact absurd hnone (by simp)
    · exact hsome
  · intro m3
    rw [hreply2]
    rfl
  · intro duration
    obtain ⟨m2, hrun, _, hall⟩ := sync_then_pump m hm f ignored args duration
    rw [hfail] at hall
    rw [hreply2]
    exact ⟨m2, hrun, fun c hc hd => ⟨(hall c hc hd).1, rfl⟩⟩

/-- Witness for C5: `Fail` bound as sync and called after an earlier call of
`Add`; with response expected the caller observes the failure after a pump of
two ticks, with response ignored the call returned the default value. -/
theorem sync_call_failure_witness :
    (∃ m2, Server.SyncRunFor 2 (detail.WrapSyncCall Fail ⟨false⟩ (0, 0) busy).2 = .ok m2 ∧
      Reply.observe m2 (detail.WrapSyncCall Fail ⟨false⟩ (0, 0) busy).1
        = some (.error "boom")) ∧
    (detail.WrapSyncCall Fail ⟨true⟩ (0, 0) busy).1 = .returned default := by
  have h := sync_call_failure Fail busy ⟨false⟩ ⟨true⟩ (0, 0) "boom"
    (Reachable.sync Add ⟨true⟩ (1, 1) (Reachable.init [])) rfl rfl rfl
  obtain ⟨m2, hrun, _, _, hall⟩ := h.1 2
  refine ⟨⟨m2, hrun, hall 1 ?_ (by decide)⟩, h.2.1⟩
  intro x hx w
  simp only [busy, sync_state, Machine.init, List.nil_append, List.mem_singleton] at hx
  subst hx
  simp [Add]

/-- C6: a synchronously bound handler runs only inside a pump.  In every
reachable state: invoking a synchronous wrapper, with either value of the
flag, runs no handler (the world, the clock and the shared states made ready
are unchanged) and only appends one task, holding the functor and the
arguments, to the queue; invoking an asynchronous wrapper leaves the queue
and the shared states alone, so it runs no queued task; a pump returns and
makes ready exactly the shared states of the first `k` queued tasks, which
it removes from the queue; and every task created so far has either been run
or is still queued, never both. -/
theorem sync_handler_runs_only_in_pump {σ ε ρ : Type} [Inhabited ρ]
    (m : Machine σ ε ρ) (hm : Reachable m) :
    (∀ (α : Type) (f : FunctionType σ ε α ρ) (metadata : Metadata) (args : α),
      (detail.WrapSyncCall f metadata args m).2.env.world = m.env.world ∧
      (detail.WrapSyncCall f metadata args m).2.env.now = m.env.now ∧
      (detail.WrapSyncCall f metadata args m).2.env.ready = m.env.ready ∧
      (detail.WrapSyncCall f metadata args m).2.sync_io_service.queue
        = m.sync_io_service.queue ++ [{ state := m.env.next_state, fn := f args }]) ∧
    (∀ (α : Type) (f : FunctionType σ ε α ρ) (metadata : Metadata) (args : α),
      (detail.WrapAsyncCall f metadata args m).2.env.ready = m.env.ready ∧
      (detail.WrapAsyncCall f metadata args m).2.sync_io_service = m.sync_io_service) ∧
    (∀ duration, ∃ k m2, Server.SyncRunFor duration m = .ok m2 ∧
      m2.env = complete_all (m.sync_io_service.queue.take k) m.env ∧
      m2.env.ready.map Prod.fst
        = m.env.ready.map Prod.fst
          ++ (m.sync_io_service.queue.take k).map PackagedTask.state ∧
      m2.sync_io_service.queue = m.sync_io_service.queue.drop k) ∧
    (m.env.ready.map Prod.fst ++ m.sync_io_service.queue.map PackagedTask.state).Nodup ∧
    m.env.ready.map Prod.fst ++ m.sync_io_service.queue.map PackagedTask.state
      = List.range m.env.next_state := by
  have hord := reachable_ordered m hm
  refine ⟨?_, ?_, ?_, ordered_nodup m hord, hord⟩
  · intro α f metadata args
    rw [sync_state]
    exact ⟨rfl, rfl, rfl, rfl⟩
  · intro α f metadata args
    simp only [detail.WrapAsyncCall, FunctionTraits.WrapForRPC, call_functor]
    cases (f args m.env.world).outcome <;> exact ⟨rfl, rfl⟩
  · intro duration
    obtain ⟨k, b, _, hrun, _, _⟩ := SyncRunFor_spec duration m hord
    exact ⟨k, _, hrun, rfl, by simp only [complete_all_ready_ids], rfl⟩

/-- Witness for C6: a further call of `Log` through its synchronous wrapper,
with either flag, logs nothing. -/
theorem sync_handler_runs_only_in_pump_witness :
    (detail.WrapSyncCall Log ⟨false⟩ "again" logged).2.env.world = [] ∧
    (detail.WrapSyncCall Log ⟨true⟩ "again" logged).2.env.world = [] :=
  ⟨((sync_handler_runs_only_in_pump logged
      (Reachable.sync Log ⟨true⟩ "hello" (Reachable.init []))).1
        String Log ⟨false⟩ "again").1,
   ((sync_handler_runs_only_in_pump logged
      (Reachable.sync Log ⟨true⟩ "hello" (Reachable.init []))).1
        String Log ⟨true⟩ "again").1⟩

/-- C7, the claim as stated fails for a duration that elapses before the
queue is drained: with `Log("hello")` queued by a response-ignored call, a
pump of duration zero returns with the task still queued, nothing logged and
no shared state ready, whereas a pump of duration one runs it. -/
theorem SyncRunFor_zero_runs_nothing :
    (Server.SyncRunFor 0 logged).toOption.map
        (fun m => (m.sync_io_service.queue.length, m.env.world, m.env.ready.length))
      = some (1, [], 0) ∧
    (Server.SyncRunFor 1 logged).toOption.map
        (fun m => (m.sync_io_service.queue.length, m.env.world, m.env.ready.length))
      = some (0, ["hello"], 1) := by
  decide

/-- C7, amended: in every reachable state a pump, of any duration, resets the
stopped flag and then runs queued tasks in queue order for as long as the
duration has not elapsed.  It returns having run exactly the first `k`
queued tasks, each exactly once, tasks queued by response-ignored calls
included, and these are no longer queued; a task is started only while the
clock is before the deadline, so with duration zero none is run; the other
tasks stay queued and have not run, and tasks are left over only when the
duration has elapsed.  When every queued task runs for at most `c` ticks and
all but the last fit in the duration, every queued task is run and none is
left.  The reset is what keeps repeated pumps working: the service is
stopped when it runs out of work before the deadline, and `run_for` on a
stopped service runs nothing. -/
theorem pump_runs_queue_within_duration {σ ε ρ : Type} [Inhabited ρ]
    (m : Machine σ ε ρ) (duration : Nat) (hm : Reachable m) :
    ∃ k m2, k ≤ m.sync_io_service.queue.length ∧
      Server.SyncRunFor duration m = .ok m2 ∧
      m2.env = complete_all (m.sync_io_service.queue.take k) m.env ∧
      m2.sync_io_service.queue = m.sync_io_service.queue.drop k ∧
      (∀ j, j < k →
        (complete_all (m.sync_io_service.queue.take j) m.env).now
          < m.env.now + duration) ∧
      (duration = 0 → k = 0 ∧ m2.env = m.env ∧
        m2.sync_io_service.queue = m.sync_io_service.queue) ∧
      (m2.sync_io_service.queue ≠ [] → m.env.now + duration ≤ m2.env.now) ∧
      (∀ x ∈ m.sync_io_service.queue.take k,
        (m2.env.ready.map Prod.fst).count x.state = 1) ∧
      (∀ x ∈ m2.sync_io_service.queue,
        (m2.env.ready.map Prod.fst).count x.state = 0) ∧
      (∀ c, (∀ x ∈ m.sync_io_service.queue, ∀ w, (x.fn w).elapsed ≤ c) →
        (m.sync_io_service.queue.length - 1) * c < duration →
        m2.sync_io_service.queue = [] ∧
        m2.env = complete_all m.sync_io_service.queue m.env) ∧
      (m2.sync_io_service.queue = [] → m2.env.now < m.env.now + duration →
        m2.sync_io_service.stopped = true) ∧
      (m.sync_io_service.stopped = true → run_for duration m = .ok m) := by
  have hord := reachable_ordered m hm
  obtain ⟨k, b, hk, hrun, hleft, hstart, hb⟩ := SyncRunFor_exact duration m hord
  have hnd2 := ordered_nodup _ (reachable_ordered _ (Reachable.pump duration hm hrun))
  simp only [complete_all_ready_ids] at hnd2
  have hk0 : duration = 0 → k = 0 := by
    intro hz
    by_contra hne
    have := hstart 0 (Nat.pos_of_ne_zero hne)
    simp [complete_all, hz] at this
  refine ⟨k, _, hk, hrun, rfl, rfl, hstart, ?_, hleft, ?_, ?_, ?_, ?_, ?_⟩
  · intro hz
    have := hk0 hz
    subst this
    exact ⟨rfl, rfl, rfl⟩
  · intro x hx
    simp only [complete_all_ready_ids]
    exact List.count_eq_one_of_mem (List.nodup_append.mp hnd2).1
      (List.mem_append_right _ (List.mem_map_of_mem _ hx))
  · intro x hx
    simp only [complete_all_ready_ids]
    apply List.count_eq_zero_of_not_mem
    intro hmem
    exact (List.nodup_append.mp hnd2).2.2 hmem (List.mem_map_of_mem _ hx)
  · intro c hc hd
    have hall := SyncRunFor_all c duration m hord hc hd
    rw [hrun] at hall
    injection hall with hall
    rw [hall]
    exact ⟨rfl, rfl⟩
  · intro hempty hnow
    have hpos : 0 < duration := by
      have := complete_all_now_le (m.sync_io_service.queue.take k) m.env
      simp only at hnow
      omega
    simp only at hempty
    simp [hb hpos, hempty]
  · intro hstop
    simp [run_for, hstop]

/-- Witness for C7 as amended, the scenario of the spec: the `Log` task
queued by a response-ignored call is run by a later pump of one tick, which
performs the side effect once and leaves the queue empty. -/
theorem pump_runs_queue_within_duration_witness :
    ∃ m2, Server.SyncRunFor 1 logged = .ok m2 ∧ m2.sync_io_service.queue = [] ∧
      m2.env.world = ["hello"] := by
  obtain ⟨_, m2, _, hrun, _, _, _, _, _, _, _, hall, _⟩ :=
    pump_runs_queue_within_duration logged 1
      (Reachable.sync Log ⟨true⟩ "hello" (Reachable.init []))
  have h := hall 1
    (by
      intro x hx w
      simp only [logged, sync_state, Machine.init, List.nil_append, List.mem_singleton] at hx
      subst hx
      simp [Log])
    (by decide)
  refine ⟨m2, hrun, h.1, ?_⟩
  rw [h.2]
  rfl

/-- C9: a handler failure does not make the pump fail.  In a reachable state
whose queue is `q1 ++ t :: q2`, let the handler of `t` throw `e` in the world
in which it is run.  A pump of any duration returns normally, having run the
first `k` queued tasks; when `t` is among them the failure `e` is stored in
the shared state of `t`; and the pump goes on after `t` as after any other
task: tasks are left queued only when the duration has elapsed, never
because of the failure.  So with the time for the queue (at most `c` ticks
for each task, all but the last fitting in the duration) it runs `t` and
then every task of `q2`: each has its shared state ready and none is left
queued. -/
theorem pump_survives_handler_failure {σ ε ρ : Type} [Inhabited ρ]
    (m : Machine σ ε ρ) (q1 q2 : List (PackagedTask σ ε ρ)) (t : PackagedTask σ ε ρ)
    (e : ε)
    (hm : Reachable m)
    (hq : m.sync_io_service.queue = q1 ++ t :: q2)
    (hfail : (t.fn (complete_all q1 m.env).world).outcome = .error e)
    (duration : Nat) :
    ∃ k m2, Server.SyncRunFor duration m = .ok m2 ∧
      m2.env = complete_all ((q1 ++ t :: q2).take k) m.env ∧
      m2.sync_io_service.queue = (q1 ++ t :: q2).drop k ∧
      (m2.sync_io_service.queue ≠ [] → m.env.now + duration ≤ m2.env.now) ∧
      (q1.length < k → future_get m2.env t.state = some (.error e)) ∧
      ∀ c, (∀ x ∈ m.sync_io_service.queue, ∀ w, (x.fn w).elapsed ≤ c) →
        (q1.length + q2.length) * c < duration →
        future_get m2.env t.state = some (.error e) ∧
        m2.env = complete_all (q1 ++ t :: q2) m.env ∧
        m2.sync_io_service.queue = [] ∧
        ∀ x ∈ q2, ∃ r, future_get m2.env x.state = some r := by
  have hord := reachable_ordered m hm
  have hnd := ordered_nodup m hord
  rw [hq] at hnd
  obtain ⟨k, b, _, hrun, hleft, _⟩ := SyncRunFor_spec duration m hord
  refine ⟨k, _, hrun, by rw [hq], by rw [hq], by simpa [hq] using hleft, ?_, ?_⟩
  · intro hk
    have h := (future_get_take q1 q2 t m.env k hnd).1 hk
    rw [hfail] at h
    simpa [hq] using h
  · intro c hc hd
    have hlen : (m.sync_io_service.queue.length - 1) * c < duration := by
      rw [hq]
      simpa using hd
    have hall := SyncRunFor_all c duration m hord hc hlen
    rw [hrun] at hall
    injection hall with hall
    rw [hall]
    simp only [hq]
    refine ⟨?_, trivial, trivial, ?_⟩
    · have h := future_get_complete_all q1 q2 t m.env hnd
      rw [hfail] at h
      exact h
    · intro x hx
      apply lookup_present
      rw [complete_all_ready_ids]
      apply List.mem_append_right
      simp only [List.map_append, List.map_cons, List.mem_append, List.mem_cons]
      exact Or.inr (Or.inr (List.mem_map_of_mem _ hx))

/-- Witness for C9: the queue holds a task that throws and then a task of
`Add`; a pump of two ticks returns, the failure is stored in the shared state
of the first task and the queue is empty. -/
theorem pump_survives_handler_failure_witness :
    ∃ m2, Server.SyncRunFor 2 faulty = .ok m2 ∧
      future_get m2.env 0 = some (.error "boom") ∧
      m2.sync_io_service.queue = [] := by
  obtain ⟨_, m2, hrun, _, _, _, _, hall⟩ :=
    pump_survives_handler_failure faulty []
      [{ state := 1, fn := Add (2, 3) }] { state := 0, fn := Fail (0, 0) } "boom"
      (Reachable.sync Add ⟨false⟩ (2, 3)
        (Reachable.sync Fail ⟨false⟩ (0, 0) (Reachable.init [])))
      rfl rfl 2
  have h := hall 1
    (by
      intro x hx w
      simp only [faulty, sync_state, Machine.init, List.nil_append, List.cons_append,
        List.mem_cons, List.mem_singleton, List.not_mem_nil, or_false] at hx
      rcases hx with hx | hx <;> subst hx <;> simp [Add, Fail])
    (by decide)
  exact ⟨m2, hrun, h.1, h.2.2.1⟩

end rpc
end carla
